import Mathlib

/-!
Verification of the stream-merge core of the `grpcer` repository
(`merge.go`) and of its dial-option configuration (`DialOpts`).

The byte streams handled by the Go code are modelled as `List Char`.
The JSON encoder used by the code (`jsoniter`) is an external library;
it is modelled here as a function producing the standard JSON
serialization of a value in a single `Write` call.  Record values are
modelled over a small universe sufficient for the specified behaviour:
integer scalar fields, nil slices, and non-nil slices of integers.
Go runtime faults (panics) are modelled by `Option`: a merge that
panics returns `none`.
-/

set_option maxRecDepth 4096

namespace Grpcer

/-- A byte stream, modelled as a list of characters. -/
abbrev Bytes := List Char

/-! ## Field classifier (`sliceFields`, merge.go lines 177-207) -/

/-- The value of one top-level Go struct field, restricted to the shapes
the merge distinguishes: a non-slice ("scalar") value, a nil slice, or a
non-nil slice with its elements. -/
inductive GoValue where
  | scalar (n : Int)
  | sliceNil
  | slice (elems : List Int)
deriving DecidableEq, Repr

/-- One declared field of a Go struct: its name, its `json:"..."` struct
tag (the result of `Tag.Get("json")`), and its current value.  A record
is its ordered list of fields.  Faithful for records whose field names
are pairwise distinct, as Go struct types guarantee. -/
structure structField where
  fname : String
  jsonTag : String
  value : GoValue
deriving DecidableEq, Repr

/-- A structured record value, as the merge receives it. -/
abbrev GoRecord := List structField

/-- The `field` struct of merge.go (lines 171-175). -/
structure field where
  Name : String
  JSONName : String
  Value : GoValue
deriving DecidableEq, Repr

/-- The JSONName computation of `sliceFields` (merge.go lines 189-195):
the `json` tag cut at the first comma, defaulting to the field name when
empty. -/
def jsonNameOf (tf : structField) : String :=
  let t := String.mk (tf.jsonTag.data.takeWhile (fun c => c ≠ ','))
  if t = "" then tf.fname else t

/-- `sliceFields` (merge.go lines 177-207): split a record's fields, in
declared order, into slice-valued and non-slice-valued fields; a nil
slice is skipped entirely. -/
def sliceFields (part : GoRecord) : List field × List field :=
  part.foldr
    (fun tf acc =>
      let fld : field := { Name := tf.fname, JSONName := jsonNameOf tf, Value := tf.value }
      match tf.value with
      | .scalar _ => (acc.1, fld :: acc.2)
      | .sliceNil => acc
      | .slice _ => (fld :: acc.1, acc.2))
    ([], [])

/-! ## Encoder model

`jsoniter.NewEncoder(w).Encode(v)` is modelled as a single `Write` of
the standard JSON serialization of `v`.  Strings are modelled without
escape sequences (no value used here contains a character that JSON
escapes).  Integer printing is spelled out so that facts about its
characters are provable. -/

/-- The decimal digit character for `d` (expects `d < 10`). -/
def digitChar (d : Nat) : Char := Char.ofNat (48 + d)

/-- Fuel-driven decimal printer: pushes the digits of `n` (most
significant first) in front of `acc`. -/
def natDigitsGo : Nat → Nat → Bytes → Bytes
  | 0, n, acc => digitChar (n % 10) :: acc
  | fuel + 1, n, acc =>
      if n < 10 then digitChar (n % 10) :: acc
      else natDigitsGo fuel (n / 10) (digitChar (n % 10) :: acc)

/-- Decimal representation of a natural number. -/
def natDigits (n : Nat) : Bytes := natDigitsGo n n []

/-- JSON serialization of an integer. -/
def encInt : Int → Bytes
  | .ofNat n => natDigits n
  | .negSucc n => '-' :: natDigits (n + 1)

/-- JSON serialization of a string (escape-free model). -/
def encStr (s : String) : Bytes := '"' :: s.data ++ ['"']

/-- The comma-separated serializations of a list of elements (the inside
of a JSON array). -/
def encElems : List Int → Bytes
  | [] => []
  | [x] => encInt x
  | x :: y :: t => encInt x ++ ',' :: encElems (y :: t)

/-- JSON serialization of a field value: a number, `null` for a nil
slice, or a bracketed array. -/
def encode : GoValue → Bytes
  | .scalar n => encInt n
  | .sliceNil => "null".data
  | .slice es => '[' :: encElems es ++ [']']

/-- JSON serialization of a whole record (used by the passthrough mode
of `mergeStreams` when the first record has no slice fields). -/
def encFields : GoRecord → Bytes
  | [] => []
  | [tf] => encStr (jsonNameOf tf) ++ ':' :: encode tf.value
  | tf :: tf' :: t => encStr (jsonNameOf tf) ++ ':' :: encode tf.value ++ ',' :: encFields (tf' :: t)

/-- JSON serialization of a record as a JSON object. -/
def encodeRecord (r : GoRecord) : Bytes := '{' :: encFields r ++ ['}']

/-! ## The trim writer (`trimWriter`, merge.go lines 209-250) -/

/-- State of `trimWriter`: the remaining prefix still to strip (the Go
field `prefix`, which the code shortens in place), the fixed suffix (Go
field `suffix`), and the withheld tail (Go field `buf`). -/
structure trimWriter where
  pre : Bytes
  suf : Bytes
  buf : Bytes
deriving DecidableEq, Repr

/-- `newTrimWriter` (merge.go lines 215-217). -/
def newTrimWriter (p s : Bytes) : trimWriter := ⟨p, s, []⟩

/-- `trimWriter.Write` (merge.go lines 218-243).  Returns the new state
and the bytes forwarded to the destination writer.  The returned byte
count and write errors of the Go code are not modelled (the destination
writes always succeed here, and callers ignore the count). -/
def trimWriter.Write (tw : trimWriter) (p : Bytes) : trimWriter × Bytes :=
  if tw.pre ≠ [] ∧ p.length ≤ tw.pre.length then
    ({ tw with pre := tw.pre.drop p.length }, [])
  else
    let p' := p.drop tw.pre.length
    let fl : Bytes × Bytes :=
      if tw.buf ≠ [] ∧ tw.suf.length ≤ tw.buf.length then ([], tw.buf) else (tw.buf, [])
    if p'.length ≤ tw.suf.length then
      ({ pre := [], suf := tw.suf, buf := fl.1 ++ p' }, fl.2)
    else
      let i := p'.length - tw.suf.length + fl.1.length
      ({ pre := [], suf := tw.suf, buf := fl.1 ++ p'.drop i }, fl.2 ++ p'.take i)

/-- `trimWriter.Close` (merge.go lines 244-250): the withheld tail is
discarded exactly when it equals the suffix, otherwise flushed. -/
def trimWriter.Close (tw : trimWriter) : Bytes :=
  if tw.suf = tw.buf then [] else tw.buf

/-- Feed a sequence of `Write` calls to a trim writer, collecting the
forwarded bytes. -/
def feedTrim (tw : trimWriter) (ws : List Bytes) : trimWriter × Bytes :=
  ws.foldl (fun st p => let r := st.1.Write p; (r.1, st.2 ++ r.2)) (tw, [])

/-- Everything the destination receives from a fresh trim writer fed the
given writes and then closed. -/
def twRun (p s : Bytes) (ws : List Bytes) : Bytes :=
  let r := feedTrim (newTrimWriter p s) ws
  r.2 ++ r.1.Close

/-- One encoder `Encode` call routed through a fresh trim writer that is
closed immediately afterwards — the pattern `newTrimWriter; Encode;
Close` used throughout `mergeStreams`. -/
def trimOnce (p s v : Bytes) : Bytes := twRun p s [v]

/-! ## The stream merger (`mergeStreams`, merge.go lines 35-169) -/

/-- The error value a `Recv` call can return: the distinguished
end-of-stream `io.EOF`, or any other transport error (identified by a
code for the purposes of the model). -/
inductive RecvErr where
  | eof
  | other (code : Nat)
deriving DecidableEq, Repr

/-- One result of the record source: either a record or an error.  The
merge consumes the list in order until the first error; an exhausted
list behaves like a source that returns `io.EOF`. -/
inductive RecvItem where
  | part (r : GoRecord)
  | fail (e : RecvErr)
deriving DecidableEq, Repr

/-- The diagnostic events `mergeStreams` emits through its `Log`
collaborator, restricted to those reachable in this model (I/O against
the in-memory sinks always succeeds, temp-file creation always
succeeds, and the encoder never fails). -/
inductive LogEvent where
  /-- `Log("slices", slice)`: the slice fields of the first record. -/
  | slices (names : List String)
  /-- `Log("error", err)` after a schema check found an unknown or
  reclassified field; carries the offending field name that the last
  `errors.Wrap(errNewField, f.Name)` recorded. -/
  | newField (name : String)
  /-- `Log("msg", "recv", "error", err)` for a non-EOF receive error. -/
  | recvError (code : Nat)
deriving DecidableEq, Repr

/-- The mutable state of one merge invocation: the bytes written to the
output `w`, the spillover temp files in creation order (name to
contents), and the log events emitted so far. -/
structure MState where
  out : Bytes
  files : List (String × Bytes)
  logs : List LogEvent
deriving DecidableEq, Repr

/-- Replace the contents bound to `key` in an association list (the key
is present whenever the merge calls this). -/
def updateAssoc : List (String × Bytes) → String → Bytes → List (String × Bytes)
  | [], _, _ => []
  | (k, v) :: t, key, nv => if k = key then (k, nv) :: t else (k, v) :: updateAssoc t key nv

/-- The schema check of merge.go lines 125-134: the names of the fields
of a later record that are unknown or whose slice/non-slice
classification disagrees with the `names` map captured from the first
record.  Go's `err` variable is overwritten per offender, so only the
last offender is logged. -/
def offenders (names : List (String × Bool)) (S nS : List field) : List String :=
  (S.filter (fun f => ! (names.lookup f.Name == some true))).map (fun f => f.Name)
    ++ (nS.filter (fun f => ! (names.lookup f.Name == some false))).map (fun f => f.Name)

/-- The log events the schema check of one record produces. -/
def schemaLog (names : List (String × Bool)) (S nS : List field) : List LogEvent :=
  match (offenders names S nS).getLast? with
  | some nm => [.newField nm]
  | none => []

/-- The spillover writes for one record (merge.go lines 147-155): for
each remaining slice field, a separator comma and the field's trimmed
elements are appended to its temp file.  `none` models the Go panic on
a field with no temp file: `files[f.Name]` is a nil `*os.File`, its
`Write` returns `ErrInvalid`, and the error log calls `fh.Name()` on
the nil pointer. -/
def writeSlices (st : MState) : List field → Option MState
  | [] => some st
  | f :: t =>
      match st.files.lookup f.Name with
      | none => none
      | some content =>
          let nv := content ++ ',' :: trimOnce ['['] [']'] (encode f.Value)
          writeSlices { st with files := updateAssoc st.files f.Name nv } t

/-- Processing of one later record (merge.go lines 124-155): classify,
run the schema check (log only — processing continues), then append the
first slice field's elements to the output when it matches the first
record's first slice field, and route the remaining slice fields to
their temp files.  `none` models the panic of `S[0]` on a record whose
slice fields are all nil (merge.go line 140). -/
def procPart (slice0Name : String) (names : List (String × Bool)) (st : MState)
    (r : GoRecord) : Option MState :=
  let c := sliceFields r
  let lg := schemaLog names c.1 c.2
  match c.1 with
  | [] => none
  | s0 :: rest =>
      let st := { st with logs := st.logs ++ lg }
      let stS : MState × List field :=
        if s0.Name = slice0Name then
          ({ st with out := st.out ++ ',' :: trimOnce ['['] [']'] (encode s0.Value) }, rest)
        else (st, s0 :: rest)
      writeSlices stS.1 stS.2

/-- The receive loop of merge.go lines 113-156: consume records until
the first error (logging it when it is not `io.EOF`), processing each
record. -/
def runLoop (slice0Name : String) (names : List (String × Bool)) (st : MState) :
    List RecvItem → Option MState
  | [] => some st
  | .fail .eof :: _ => some st
  | .fail (.other c) :: _ => some { st with logs := st.logs ++ [.recvError c] }
  | .part r :: rest =>
      match procPart slice0Name names st r with
      | none => none
      | some st' => runLoop slice0Name names st' rest

/-- The scalar-field prefix written from the first record (merge.go
lines 70-81): for each non-slice field, its encoded name and value (each
through a newline-trimming writer) with `:` and a trailing `,`. -/
def scalarPrefix (nS : List field) : Bytes :=
  nS.foldr
    (fun f acc =>
      trimOnce [] ['\n'] (encStr f.JSONName) ++ ':' ::
        (trimOnce [] ['\n'] (encode f.Value) ++ ',' :: acc))
    []

/-- The temp files created for the slice fields beyond the first
(merge.go lines 92-111), in creation order: each starts with the encoded
field name, `:[`, and the first record's elements trimmed of the
encoder's own brackets. -/
def initFiles (slRest : List field) : List (String × Bytes) :=
  slRest.map (fun f =>
    (f.Name, trimOnce [] ['\n'] (encStr f.JSONName) ++ ':' :: '[' ::
      trimOnce ['['] [']'] (encode f.Value)))

/-- The `names` map of merge.go lines 66-110: non-slice fields map to
`false`, slice fields to `true`.  Modelled as an association list,
which agrees with the Go map on records with distinct field names. -/
def namesInit (sl nS : List field) : List (String × Bool) :=
  nS.map (fun f => (f.Name, false)) ++ sl.map (fun f => (f.Name, true))

/-- The finalization pass over the temp files (merge.go lines 159-167):
for each file, a separator comma, its full contents, and a closing
bracket. -/
def spillBytes : List (String × Bytes) → Bytes
  | [] => []
  | (_, c) :: t => ',' :: c ++ ']' :: spillBytes t

/-- The passthrough loop of merge.go lines 46-63 after the first record:
each further record is encoded as a standalone value until the source
errors (non-EOF errors are logged). -/
def passthroughGo : List RecvItem → Bytes × List LogEvent
  | [] => ([], [])
  | .part r :: rest =>
      let b := passthroughGo rest
      (encodeRecord r ++ b.1, b.2)
  | .fail .eof :: _ => ([], [])
  | .fail (.other c) :: _ => ([], [.recvError c])

/-- `mergeStreams` (merge.go lines 35-169), parameterized by `ord`, the
iteration order of the Go map `files` during finalization: Go map
iteration order is unspecified, so a faithful instantiation of `ord` is
any function that permutes its input.  Returns the bytes written to `w`
and the log events, or `none` when the Go code panics. -/
def mergeStreamsIter (ord : List (String × Bytes) → List (String × Bytes))
    (first : GoRecord) (items : List RecvItem) : Option (Bytes × List LogEvent) :=
  let c := sliceFields first
  match c.1 with
  | [] =>
      let b := passthroughGo items
      some (encodeRecord first ++ b.1, b.2)
  | s0 :: srest =>
      let names := namesInit (s0 :: srest) c.2
      let st0 : MState :=
        { out := '{' :: scalarPrefix c.2
            ++ trimOnce [] ['\n'] (encStr s0.JSONName) ++ ':' ::
              trimOnce [] [']'] (encode s0.Value)
          files := initFiles srest
          logs := [.slices ((s0 :: srest).map (fun f => f.Name))] }
      (runLoop s0.Name names st0 items).map
        (fun st => (st.out ++ ']' :: spillBytes (ord st.files) ++ ['}', '\n'], st.logs))

/-- `mergeStreams` with the temp files finalized in creation order —
one possible behaviour of the unspecified Go map iteration. -/
def mergeStreams (first : GoRecord) (items : List RecvItem) :
    Option (Bytes × List LogEvent) :=
  mergeStreamsIter id first items

/-! ## Dial options (`DialOpts`, the connection-plumbing source file) -/

/-- The configuration surface of `DialConfig`.  The `Log` function and
`Tracer` collaborator are modelled by their presence. -/
structure DialConfig where
  PathPrefix : String
  CAFile : String
  ServerHostOverride : String
  Username : String
  Password : String
  LogPresent : Bool
  AllowInsecurePasswordTransport : Bool
  TracerPresent : Bool
deriving DecidableEq, Repr

/-- The dial options `DialOpts` can append, each modelled by the gRPC
call that produces it. -/
inductive DialOption where
  | withCompressor
  | withDecompressor
  | chainStreamInterceptor
  | chainUnaryInterceptor
  /-- `grpc.WithPerRPCCredentials(NewInsecureBasicAuth(u, p))`. -/
  | perRPCInsecureBasicAuth (user pass : String)
  /-- `grpc.WithPerRPCCredentials(NewBasicAuth(u, p))`. -/
  | perRPCBasicAuth (user pass : String)
  | withInsecure
  | withTransportCredentials
deriving DecidableEq, Repr

/-- `DialOpts`.  `tlsOk` models whether
`credentials.NewClientTLSFromFile` succeeds (it reads the CA file from
the filesystem); the second component is the returned error. -/
def DialOpts (conf : DialConfig) (tlsOk : Bool) : List DialOption × Option String :=
  let dialOpts : List DialOption := [.withCompressor, .withDecompressor]
  let dialOpts :=
    if conf.PathPrefix ≠ "" ∨ conf.LogPresent then
      dialOpts ++ [.chainStreamInterceptor, .chainUnaryInterceptor]
    else dialOpts
  if conf.CAFile = "" then
    let dialOpts :=
      if conf.AllowInsecurePasswordTransport then
        dialOpts ++ [.perRPCInsecureBasicAuth conf.Username conf.Password]
      else dialOpts
    (dialOpts ++ [.withInsecure], none)
  else
    let dialOpts := dialOpts ++ [.perRPCBasicAuth conf.Username conf.Password]
    if tlsOk then (dialOpts ++ [.withTransportCredentials], none)
    else (dialOpts, some (conf.CAFile ++ "," ++ conf.ServerHostOverride))

/-- Whether an option attaches the username/password as per-RPC
credentials (by either `NewBasicAuth` or `NewInsecureBasicAuth`). -/
def DialOption.isBasicAuth : DialOption → Bool
  | .perRPCInsecureBasicAuth _ _ => true
  | .perRPCBasicAuth _ _ => true
  | _ => false

/-- Whether a list of dial options attaches basic-auth credentials. -/
def hasBasicAuth (opts : List DialOption) : Bool := opts.any DialOption.isBasicAuth

/-! ## Properties of the trim writer -/

/-- A `Write` call not longer than the pending prefix consumes the
prefix only. -/
theorem write_short (pre suf p : Bytes) (hp : pre ≠ []) (h : p.length ≤ pre.length) :
    (newTrimWriter pre suf).Write p = ({ pre := pre.drop p.length, suf := suf, buf := [] }, []) := by
  simp [newTrimWriter, trimWriter.Write, hp, h]

/-- A `Write` call longer than the pending prefix: the first
`pre.length` bytes are dropped, the last `suf.length` of the rest are
withheld, the middle is forwarded. -/
theorem write_fresh (pre suf p : Bytes) (h : pre.length < p.length) :
    (newTrimWriter pre suf).Write p =
      if (p.drop pre.length).length ≤ suf.length then
        ({ pre := [], suf := suf, buf := p.drop pre.length }, [])
      else
        ({ pre := [], suf := suf,
           buf := (p.drop pre.length).drop ((p.drop pre.length).length - suf.length) },
         (p.drop pre.length).take ((p.drop pre.length).length - suf.length)) := by
  have hcond : ¬(pre ≠ [] ∧ p.length ≤ pre.length) := by
    rintro ⟨-, hle⟩; omega
  simp only [newTrimWriter, trimWriter.Write, hcond, if_false]
  simp

/-- `trimOnce` unfolded to one `Write` and one `Close`. -/
theorem trimOnce_eq (pre suf v : Bytes) :
    trimOnce pre suf v =
      ((newTrimWriter pre suf).Write v).2 ++ ((newTrimWriter pre suf).Write v).1.Close := by
  simp [trimOnce, twRun, feedTrim]

/-- Suffix-only trimming of a bracketed value keeps the opening bracket
and strips the closing one. -/
theorem trimOnce_strip_close (inner : Bytes) :
    trimOnce [] [']'] ('[' :: inner ++ [']']) = '[' :: inner := by
  rw [trimOnce_eq, write_fresh _ _ _ (by simp)]
  have h1 : ('[' :: inner ++ [']']).drop (List.length ([] : Bytes)) = '[' :: (inner ++ [']']) := by
    simp
  rw [h1, if_neg (by simp)]
  have h2 : ('[' :: (inner ++ [']'])).length - ([']'] : Bytes).length = inner.length + 1 := by
    simp
  rw [h2]
  simp only [List.take_succ_cons, List.drop_succ_cons, List.take_left, List.drop_left]
  simp [trimWriter.Close]

/-- Trimming both brackets of a bracketed value yields exactly the
inner bytes. -/
theorem trimOnce_strip_both (inner : Bytes) :
    trimOnce ['['] [']'] ('[' :: inner ++ [']']) = inner := by
  rw [trimOnce_eq, write_fresh _ _ _ (by simp)]
  have h1 : ('[' :: inner ++ [']']).drop (List.length (['['] : Bytes)) = inner ++ [']'] := by simp
  rw [h1]
  rcases inner with _ | ⟨x, t⟩
  · simp [trimWriter.Close]
  · rw [if_neg (by simp)]
    have h2 : ((x :: t) ++ [']']).length - ([']'] : Bytes).length = (x :: t).length := by simp
    rw [h2]
    simp only [List.take_left, List.drop_left]
    simp [trimWriter.Close]

/-- A newline-trimming writer passes a payload not ending in a newline
through unchanged. -/
theorem trimOnce_newline_concat (q : Bytes) (c : Char) (h : c ≠ '\n') :
    trimOnce [] ['\n'] (q ++ [c]) = q ++ [c] := by
  rw [trimOnce_eq, write_fresh _ _ _ (by simp)]
  have h1 : (q ++ [c]).drop (List.length ([] : Bytes)) = q ++ [c] := by simp
  rw [h1]
  have hne : (['\n'] : Bytes) ≠ [c] := by
    simp [List.cons.injEq]
    intro hc
    exact absurd hc.symm h
  rcases q with _ | ⟨x, t⟩
  · simp [trimWriter.Close, hne]
  · rw [if_neg (by simp)]
    have h2 : ((x :: t) ++ [c]).length - (['\n'] : Bytes).length = (x :: t).length := by simp
    rw [h2]
    simp only [List.take_left, List.drop_left]
    simp [trimWriter.Close, hne]

/-! ## Properties of the encoder model -/

/-- `encStr` as a concatenation ending in the closing quote. -/
theorem encStr_concat (s : String) : encStr s = ('"' :: s.data) ++ ['"'] := by
  simp [encStr]

/-- A newline trimmer does not alter an encoded string. -/
theorem trimOnce_newline_encStr (s : String) : trimOnce [] ['\n'] (encStr s) = encStr s := by
  rw [encStr_concat]
  exact trimOnce_newline_concat _ _ (by decide)

/-- A digit character is neither a newline nor a closing bracket. -/
theorem digitChar_props (d : Nat) (hd : d < 10) : digitChar d ≠ '\n' ∧ digitChar d ≠ ']' := by
  interval_cases d <;> exact ⟨by decide, by decide⟩

/-- The decimal printer ends in the digit of `n % 10` followed by the
initial accumulator. -/
theorem natDigitsGo_concat :
    ∀ fuel n acc, ∃ q, natDigitsGo fuel n acc = q ++ digitChar (n % 10) :: acc := by
  intro fuel
  induction fuel with
  | zero => exact fun n acc => ⟨[], rfl⟩
  | succ f ih =>
      intro n acc
      by_cases h : n < 10
      · exact ⟨[], by simp [natDigitsGo, h]⟩
      · obtain ⟨q, hq⟩ := ih (n / 10) (digitChar (n % 10) :: acc)
        refine ⟨q ++ [digitChar (n / 10 % 10)], ?_⟩
        simp [natDigitsGo, h, hq]

/-- An encoded integer ends in a digit (in particular not a newline). -/
theorem encInt_concat (n : Int) : ∃ q c, encInt n = q ++ [c] ∧ c ≠ '\n' := by
  cases n with
  | ofNat m =>
      obtain ⟨q, hq⟩ := natDigitsGo_concat m m []
      exact ⟨q, digitChar (m % 10), by simp [encInt, natDigits, hq],
        (digitChar_props _ (Nat.mod_lt _ (by norm_num))).1⟩
  | negSucc m =>
      obtain ⟨q, hq⟩ := natDigitsGo_concat (m + 1) (m + 1) []
      exact ⟨'-' :: q, digitChar ((m + 1) % 10), by simp [encInt, natDigits, hq],
        (digitChar_props _ (Nat.mod_lt _ (by norm_num))).1⟩

/-- A newline trimmer does not alter an encoded integer. -/
theorem trimOnce_newline_encInt (n : Int) : trimOnce [] ['\n'] (encInt n) = encInt n := by
  obtain ⟨q, c, hqc, hc⟩ := encInt_concat n
  rw [hqc]
  exact trimOnce_newline_concat q c hc

/-- Every character the decimal printer produces is a digit or comes
from the accumulator. -/
theorem mem_natDigitsGo :
    ∀ fuel n acc c, c ∈ natDigitsGo fuel n acc → c ∈ acc ∨ ∃ d, d < 10 ∧ c = digitChar d := by
  intro fuel
  induction fuel with
  | zero =>
      intro n acc c hc
      rcases List.mem_cons.mp hc with h | h
      · exact Or.inr ⟨n % 10, Nat.mod_lt _ (by norm_num), h⟩
      · exact Or.inl h
  | succ f ih =>
      intro n acc c hc
      by_cases h : n < 10
      · simp only [natDigitsGo, h, if_true] at hc
        rcases List.mem_cons.mp hc with h' | h'
        · exact Or.inr ⟨n % 10, Nat.mod_lt _ (by norm_num), h'⟩
        · exact Or.inl h'
      · simp only [natDigitsGo, h, if_false] at hc
        rcases ih (n / 10) (digitChar (n % 10) :: acc) c hc with h' | h'
        · rcases List.mem_cons.mp h' with h'' | h''
          · exact Or.inr ⟨n % 10, Nat.mod_lt _ (by norm_num), h''⟩
          · exact Or.inl h''
        · exact Or.inr h'

/-- No closing bracket occurs inside an encoded integer. -/
theorem rbracket_not_mem_encInt (n : Int) : ']' ∉ encInt n := by
  intro hc
  cases n with
  | ofNat m =>
      rcases mem_natDigitsGo m m [] ']' hc with h | ⟨d, hd, h⟩
      · simp at h
      · exact (digitChar_props d hd).2 h.symm
  | negSucc m =>
      rcases List.mem_cons.mp hc with h | h
      · exact absurd h (by decide)
      · rcases mem_natDigitsGo (m + 1) (m + 1) [] ']' h with h' | ⟨d, hd, h'⟩
        · simp at h'
        · exact (digitChar_props d hd).2 h'.symm

/-- No closing bracket occurs inside the comma-separated elements of an
encoded list. -/
theorem rbracket_not_mem_encElems (l : List Int) : ']' ∉ encElems l := by
  induction l with
  | nil => simp [encElems]
  | cons x t ih =>
      cases t with
      | nil => exact rbracket_not_mem_encInt x
      | cons y u =>
          intro hc
          rcases List.mem_append.mp hc with h | h
          · exact rbracket_not_mem_encInt x h
          · rcases List.mem_cons.mp h with h' | h'
            · exact absurd h' (by decide)
            · exact ih h'

/-- Splitting the comma-separated serialization of a concatenation of
two non-empty lists. -/
theorem encElems_append (xs ys : List Int) (hx : xs ≠ []) (hy : ys ≠ []) :
    encElems (xs ++ ys) = encElems xs ++ ',' :: encElems ys := by
  induction xs with
  | nil => exact absurd rfl hx
  | cons x t ih =>
      cases t with
      | nil =>
          cases ys with
          | nil => exact absurd rfl hy
          | cons y u => simp [encElems]
      | cons x' t' =>
          have := ih (by simp)
          simp only [List.cons_append, encElems, List.append_eq] at this ⊢
          rw [this]
          simp

/-- Trimming `"["`/`"]"` from an encoded non-nil slice yields its bare
comma-separated elements. -/
theorem trimOnce_encode_slice_both (l : List Int) :
    trimOnce ['['] [']'] (encode (.slice l)) = encElems l :=
  trimOnce_strip_both (encElems l)

/-- Trimming only `"]"` from an encoded non-nil slice keeps its opening
bracket. -/
theorem trimOnce_encode_slice_close (l : List Int) :
    trimOnce [] [']'] (encode (.slice l)) = '[' :: encElems l :=
  trimOnce_strip_close (encElems l)

/-- A newline trimmer does not alter an encoded scalar. -/
theorem trimOnce_newline_encode_scalar (n : Int) :
    trimOnce [] ['\n'] (encode (.scalar n)) = encInt n :=
  trimOnce_newline_encInt n

/-! ## The `{scalar A, repeated B, repeated C}` record family

The stream claims quantify over records sharing this schema; the family
below realizes it, with `none` for a nil ("absent/empty") slice. -/

/-- A nil slice for `none`, a non-nil slice for `some`. -/
def ov : Option (List Int) → GoValue
  | none => .sliceNil
  | some l => .slice l

/-- A record of the schema `{scalar A, repeated B, repeated C}` (no
struct tags, so external names equal field names). -/
def mkRec (a : Int) (b c : Option (List Int)) : GoRecord :=
  [⟨"A", "", .scalar a⟩, ⟨"B", "", ov b⟩, ⟨"C", "", ov c⟩]

/-- The data of one later record of the family. -/
abbrev Row := Int × Option (List Int) × Option (List Int)

/-- The record a row denotes. -/
def mkRow (r : Row) : GoRecord := mkRec r.1 r.2.1 r.2.2

/-- The receive items of a list of rows. -/
def rowItems (rs : List Row) : List RecvItem := rs.map (fun r => .part (mkRow r))

/-- A row the merge processes without a fault and without corrupting
the lists: each repeated value is nil or non-empty, and at least one is
non-nil. -/
def validRow (r : Row) : Prop :=
  r.2.1 ≠ some [] ∧ r.2.2 ≠ some [] ∧ (r.2.1 ≠ none ∨ r.2.2 ≠ none)

/-- The bytes one repeated-field value contributes to its destination:
a separator comma and its elements for a non-nil value, nothing for a
nil value. -/
def segOf : Option (List Int) → Bytes
  | some l => ',' :: encElems l
  | none => []

/-- The bytes a sequence of repeated-field values contributes. -/
def segs : List (Option (List Int)) → Bytes
  | [] => []
  | o :: t => segOf o ++ segs t

/-- The concatenation of a sequence of repeated-field values, nil
values contributing nothing. -/
def cat : List (Option (List Int)) → List Int
  | [] => []
  | o :: t => o.getD [] ++ cat t

/-- The B-values of a list of rows. -/
def rowBs (rs : List Row) : List (Option (List Int)) := rs.map (fun r => r.2.1)

/-- The C-values of a list of rows. -/
def rowCs (rs : List Row) : List (Option (List Int)) := rs.map (fun r => r.2.2)

/-- Appending the contributions of a value sequence to a non-empty list
of elements serializes to the elements followed by the contributed
segments. -/
theorem encElems_cat (os : List (Option (List Int))) (hos : ∀ o ∈ os, o ≠ some []) :
    ∀ x, x ≠ [] → encElems (x ++ cat os) = encElems x ++ segs os := by
  induction os with
  | nil => intro x _; simp [cat, segs]
  | cons o t ih =>
      intro x hx
      have ht : ∀ o' ∈ t, o' ≠ some [] := fun o' h => hos o' (List.mem_cons_of_mem _ h)
      cases o with
      | none =>
          simp only [cat, segs, segOf, Option.getD_none, List.nil_append]
          exact ih ht x hx
      | some l =>
          have hl : l ≠ [] := fun h => hos (some l) (List.mem_cons_self _ _) (by rw [h])
          simp only [cat, segs, segOf, Option.getD_some]
          rw [← List.append_assoc, ih ht (x ++ l) (by simp [hx]), encElems_append x l hx hl]
          simp

/-- One later record of the family is processed without fault, appending
its B-contribution to the output and its C-contribution to the single
temp file. -/
theorem procPart_row (w fc : Bytes) (lg : List LogEvent) (r : Row) (hv : validRow r) :
    procPart "B" [("A", false), ("B", true), ("C", true)] ⟨w, [("C", fc)], lg⟩ (mkRow r) =
      some ⟨w ++ segOf r.2.1, [("C", fc ++ segOf r.2.2)], lg⟩ := by
  obtain ⟨a, b, c⟩ := r
  rcases b with _ | bl <;> rcases c with _ | cl
  · rcases hv.2.2 with h | h <;> exact absurd rfl h
  · have h1 : procPart "B" [("A", false), ("B", true), ("C", true)] ⟨w, [("C", fc)], lg⟩
        (mkRow (a, none, some cl)) =
        some ⟨w, [("C", fc ++ ',' :: trimOnce ['['] [']'] (encode (.slice cl)))], lg ++ []⟩ := rfl
    rw [h1, trimOnce_encode_slice_both]
    simp [segOf]
  · have h1 : procPart "B" [("A", false), ("B", true), ("C", true)] ⟨w, [("C", fc)], lg⟩
        (mkRow (a, some bl, none)) =
        some ⟨w ++ ',' :: trimOnce ['['] [']'] (encode (.slice bl)), [("C", fc)], lg ++ []⟩ := rfl
    rw [h1, trimOnce_encode_slice_both]
    simp [segOf]
  · have h1 : procPart "B" [("A", false), ("B", true), ("C", true)] ⟨w, [("C", fc)], lg⟩
        (mkRow (a, some bl, some cl)) =
        some ⟨w ++ ',' :: trimOnce ['['] [']'] (encode (.slice bl)),
          [("C", fc ++ ',' :: trimOnce ['['] [']'] (encode (.slice cl)))], lg ++ []⟩ := rfl
    rw [h1, trimOnce_encode_slice_both, trimOnce_encode_slice_both]
    simp [segOf]

/-- Running the receive loop over valid rows accumulates the B-segments
on the output and the C-segments in the temp file. -/
theorem runLoop_family :
    ∀ (rs : List Row), (∀ r ∈ rs, validRow r) →
      ∀ (w fc : Bytes) (lg : List LogEvent) (tl : List RecvItem),
        runLoop "B" [("A", false), ("B", true), ("C", true)] ⟨w, [("C", fc)], lg⟩
            (rowItems rs ++ tl) =
          runLoop "B" [("A", false), ("B", true), ("C", true)]
            ⟨w ++ segs (rowBs rs), [("C", fc ++ segs (rowCs rs))], lg⟩ tl := by
  intro rs
  induction rs with
  | nil => intro _ w fc lg tl; simp [rowItems, rowBs, rowCs, segs]
  | cons r t ih =>
      intro hv w fc lg tl
      have hr := hv r (List.mem_cons_self _ _)
      have ht := fun r' h => hv r' (List.mem_cons_of_mem _ h)
      show runLoop "B" _ _ (.part (mkRow r) :: (rowItems t ++ tl)) = _
      simp only [runLoop, procPart_row w fc lg r hr]
      rw [ih ht]
      simp [rowBs, rowCs, segs, List.append_assoc]

/-- The terminal items of a stream: nothing (the model's end-of-list
behaves like `io.EOF`) or one error. -/
def termItems : Option RecvErr → List RecvItem
  | none => []
  | some e => [.fail e]

/-- The log events the terminal of a stream produces. -/
def termLog : Option RecvErr → List LogEvent
  | some (.other c) => [.recvError c]
  | _ => []

/-- Closed form of the merge on the family: scalars from the first
record, the B list streamed into the output, the C list spilled and
finalized, each list the arrival-order concatenation of its non-nil
contributions. -/
theorem mergeStreams_family (ord : List (String × Bytes) → List (String × Bytes))
    (hord : ∀ l, (ord l).Perm l) (a₁ : Int) (b₁ c₁ : List Int) (hb : b₁ ≠ []) (hc : c₁ ≠ [])
    (rs : List Row) (hv : ∀ r ∈ rs, validRow r) (te : Option RecvErr) :
    mergeStreamsIter ord (mkRec a₁ (some b₁) (some c₁)) (rowItems rs ++ termItems te) =
      some ('{' :: (encStr "A" ++ ':' :: (encInt a₁ ++ ',' :: (encStr "B" ++ ':' :: '[' ::
            (encElems (b₁ ++ cat (rowBs rs)) ++ ']' :: ',' :: (encStr "C" ++ ':' :: '[' ::
            (encElems (c₁ ++ cat (rowCs rs)) ++ ']' :: ['}', '\n'])))))),
        LogEvent.slices ["B", "C"] :: termLog te) := by
  have hbs : ∀ o ∈ rowBs rs, o ≠ some [] := by
    intro o ho
    obtain ⟨r, hr, rfl⟩ := List.mem_map.mp ho
    exact (hv r hr).1
  have hcs : ∀ o ∈ rowCs rs, o ≠ some [] := by
    intro o ho
    obtain ⟨r, hr, rfl⟩ := List.mem_map.mp ho
    exact (hv r hr).2.1
  have h0 : mergeStreamsIter ord (mkRec a₁ (some b₁) (some c₁)) (rowItems rs ++ termItems te) =
      (runLoop "B" [("A", false), ("B", true), ("C", true)]
        ⟨'{' :: (trimOnce [] ['\n'] (encStr "A") ++ ':' ::
            (trimOnce [] ['\n'] (encode (GoValue.scalar a₁)) ++ ',' :: []))
            ++ trimOnce [] ['\n'] (encStr "B") ++ ':' ::
              trimOnce [] [']'] (encode (GoValue.slice b₁)),
          [("C", trimOnce [] ['\n'] (encStr "C") ++ ':' :: '[' ::
            trimOnce ['['] [']'] (encode (GoValue.slice c₁)))],
          [.slices ["B", "C"]]⟩ (rowItems rs ++ termItems te)).map
        (fun st => (st.out ++ ']' :: spillBytes (ord st.files) ++ ['}', '\n'], st.logs)) := rfl
  have hord1 : ∀ x : String × Bytes, ord [x] = [x] := fun x => List.perm_singleton.mp (hord [x])
  rw [h0, runLoop_family rs hv]
  rw [encElems_cat (rowBs rs) hbs b₁ hb, encElems_cat (rowCs rs) hcs c₁ hc]
  cases te with
  | none =>
      show some _ = some _
      simp [hord1, trimOnce_newline_encStr, trimOnce_newline_encode_scalar,
        trimOnce_encode_slice_close, trimOnce_encode_slice_both, spillBytes, termLog,
        List.append_assoc]
  | some e =>
      cases e with
      | eof =>
          show some _ = some _
          simp [hord1, trimOnce_newline_encStr, trimOnce_newline_encode_scalar,
            trimOnce_encode_slice_close, trimOnce_encode_slice_both, spillBytes, termLog,
            List.append_assoc]
      | other cc =>
          show some _ = some _
          simp [hord1, trimOnce_newline_encStr, trimOnce_newline_encode_scalar,
            trimOnce_encode_slice_close, trimOnce_encode_slice_both, spillBytes, termLog,
            List.append_assoc]

/-! ## Scalar stability machinery -/

/-- Replace the value of every non-slice field by the image of its name
under `σ`, leaving slice fields untouched — the family of streams that
differ from a given one only in later records' scalar values. -/
def mapScalarsRec (σ : String → Int) (r : GoRecord) : GoRecord :=
  r.map (fun tf =>
    match tf.value with
    | .scalar _ => { tf with value := .scalar (σ tf.fname) }
    | _ => tf)

/-- `mapScalarsRec` lifted to receive items. -/
def mapScalarsItem (σ : String → Int) : RecvItem → RecvItem
  | .part r => .part (mapScalarsRec σ r)
  | .fail e => .fail e

/-- Unfolding `sliceFields` over a scalar field. -/
theorem sliceFields_cons_scalar (fn tg : String) (n : Int) (t : GoRecord) :
    sliceFields (⟨fn, tg, .scalar n⟩ :: t) =
      ((sliceFields t).1,
        ⟨fn, jsonNameOf ⟨fn, tg, .scalar n⟩, .scalar n⟩ :: (sliceFields t).2) := rfl

/-- Unfolding `sliceFields` over a nil slice field. -/
theorem sliceFields_cons_nil (fn tg : String) (t : GoRecord) :
    sliceFields (⟨fn, tg, .sliceNil⟩ :: t) = sliceFields t := rfl

/-- Unfolding `sliceFields` over a non-nil slice field. -/
theorem sliceFields_cons_slice (fn tg : String) (l : List Int) (t : GoRecord) :
    sliceFields (⟨fn, tg, .slice l⟩ :: t) =
      (⟨fn, jsonNameOf ⟨fn, tg, .slice l⟩, .slice l⟩ :: (sliceFields t).1,
        (sliceFields t).2) := rfl

/-- Changing scalar values changes neither the slice fields nor the
names of the non-slice fields. -/
theorem sliceFields_mapScalars (σ : String → Int) (r : GoRecord) :
    (sliceFields (mapScalarsRec σ r)).1 = (sliceFields r).1 ∧
      ((sliceFields (mapScalarsRec σ r)).2).map (fun f => f.Name) =
        ((sliceFields r).2).map (fun f => f.Name) := by
  induction r with
  | nil => exact ⟨rfl, rfl⟩
  | cons tf t ih =>
      obtain ⟨ih1, ih2⟩ := ih
      obtain ⟨fn, tg, v⟩ := tf
      cases v with
      | scalar n =>
          have hm : mapScalarsRec σ (⟨fn, tg, .scalar n⟩ :: t) =
              ⟨fn, tg, .scalar (σ fn)⟩ :: mapScalarsRec σ t := rfl
          rw [hm, sliceFields_cons_scalar, sliceFields_cons_scalar]
          exact ⟨ih1, by simp [ih2]⟩
      | sliceNil =>
          have hm : mapScalarsRec σ (⟨fn, tg, .sliceNil⟩ :: t) =
              ⟨fn, tg, .sliceNil⟩ :: mapScalarsRec σ t := rfl
          rw [hm, sliceFields_cons_nil, sliceFields_cons_nil]
          exact ⟨ih1, ih2⟩
      | slice l =>
          have hm : mapScalarsRec σ (⟨fn, tg, .slice l⟩ :: t) =
              ⟨fn, tg, .slice l⟩ :: mapScalarsRec σ t := rfl
          rw [hm, sliceFields_cons_slice, sliceFields_cons_slice]
          exact ⟨by simp [ih1], ih2⟩

/-- `offenders` depends on the non-slice fields only through their
names. -/
theorem offenders_congr (names : List (String × Bool)) (S : List field)
    (nS nS' : List field)
    (h : nS.map (fun f => f.Name) = nS'.map (fun f => f.Name)) :
    offenders names S nS = offenders names S nS' := by
  have law : ∀ (l : List field),
      ((l.filter (fun f => ! (names.lookup f.Name == some false))).map (fun f => f.Name)) =
        (l.map (fun f => f.Name)).filter (fun nm => ! (names.lookup nm == some false)) := by
    intro l
    induction l with
    | nil => rfl
    | cons f t ih =>
        simp only [List.filter_cons, List.map_cons]
        cases hf : (List.lookup f.Name names == some false) <;> simp [hf, ih]
  unfold offenders
  rw [law, law, h]

/-- `schemaLog` depends on the non-slice fields only through their
names. -/
theorem schemaLog_congr (names : List (String × Bool)) (S : List field)
    (nS nS' : List field)
    (h : nS.map (fun f => f.Name) = nS'.map (fun f => f.Name)) :
    schemaLog names S nS = schemaLog names S nS' := by
  unfold schemaLog
  rw [offenders_congr names S nS nS' h]

/-- Changing a later record's scalar values does not change how the
record is processed. -/
theorem procPart_mapScalars (σ : String → Int) (nm : String)
    (names : List (String × Bool)) (st : MState) (r : GoRecord) :
    procPart nm names st (mapScalarsRec σ r) = procPart nm names st r := by
  obtain ⟨h1, h2⟩ := sliceFields_mapScalars σ r
  simp only [procPart]
  rw [h1, schemaLog_congr names _ _ _ h2]

/-- Changing later records' scalar values does not change the receive
loop. -/
theorem runLoop_mapScalars (σ : String → Int) (nm : String)
    (names : List (String × Bool)) :
    ∀ (items : List RecvItem) (st : MState),
      runLoop nm names st (items.map (mapScalarsItem σ)) = runLoop nm names st items := by
  intro items
  induction items with
  | nil => intro st; rfl
  | cons i t ih =>
      intro st
      cases i with
      | part r =>
          show runLoop nm names st (.part (mapScalarsRec σ r) :: t.map (mapScalarsItem σ)) = _
          simp only [runLoop, procPart_mapScalars σ nm names st r]
          cases hp : procPart nm names st r with
          | none => rfl
          | some st' => exact ih st'
      | fail e => cases e <;> rfl

/-! ## Stop-at-first-error machinery -/

/-- The receive loop never looks past the first error item. -/
theorem runLoop_stop (nm : String) (names : List (String × Bool)) :
    ∀ (pre : List RecvItem) (st : MState) (e : RecvErr) (post : List RecvItem),
      runLoop nm names st (pre ++ .fail e :: post) = runLoop nm names st (pre ++ [.fail e]) := by
  intro pre
  induction pre with
  | nil => intro st e post; cases e <;> rfl
  | cons i t ih =>
      intro st e post
      cases i with
      | part r =>
          show runLoop nm names st (.part r :: (t ++ .fail e :: post)) = _
          simp only [runLoop]
          cases hp : procPart nm names st r with
          | none => rfl
          | some st' => exact ih st' e post
      | fail e' => cases e' <;> rfl

/-- The passthrough loop never looks past the first error item. -/
theorem passthroughGo_stop :
    ∀ (pre : List RecvItem) (e : RecvErr) (post : List RecvItem),
      passthroughGo (pre ++ .fail e :: post) = passthroughGo (pre ++ [.fail e]) := by
  intro pre
  induction pre with
  | nil => intro e post; cases e <;> rfl
  | cons i t ih =>
      intro e post
      cases i with
      | part r =>
          show passthroughGo (.part r :: (t ++ .fail e :: post)) = _
          simp only [passthroughGo]
          rw [ih e post]
          rfl
      | fail e' => cases e' <;> rfl

/-- The merge never consumes the record source past its first error. -/
theorem mergeStreamsIter_stop (ord : List (String × Bytes) → List (String × Bytes))
    (first : GoRecord) (pre : List RecvItem) (e : RecvErr) (post : List RecvItem) :
    mergeStreamsIter ord first (pre ++ .fail e :: post) =
      mergeStreamsIter ord first (pre ++ [.fail e]) := by
  rcases hsf : sliceFields first with ⟨sl, nsl⟩
  cases sl with
  | nil => simp only [mergeStreamsIter, hsf]; rw [passthroughGo_stop]
  | cons s0 srest => simp only [mergeStreamsIter, hsf]; rw [runLoop_stop]

/-! ## Permutations of a two-element list -/

/-- A list permuting a pair is the pair or its swap. -/
theorem perm_pair_eq {α : Type} {l : List α} {a b : α} (h : l.Perm [a, b]) :
    l = [a, b] ∨ l = [b, a] := by
  have hl : l.length = 2 := by simpa using h.length_eq
  match l, hl with
  | [x, y], _ =>
      have hx : x ∈ [a, b] := h.mem_iff.mp (by simp)
      rcases List.mem_pair.mp hx with hxa | hxb
      · left
        rw [hxa] at h ⊢
        have h2 : [y].Perm [b] := (List.perm_cons a).mp h
        rw [List.perm_singleton.mp h2]
      · right
        rw [hxb] at h ⊢
        have hswap : ([a, b] : List α).Perm [b, a] := List.Perm.swap b a []
        have h2 : [y].Perm [a] := (List.perm_cons b).mp (h.trans hswap)
        rw [List.perm_singleton.mp h2]

/-- Unfolding of the merge in merge mode: when the first record has at
least one slice field, the merge is the receive loop run from the
initial state, finalized with the first field's list-close, the spilled
files in the order `ord` yields, and the closing brace. -/
theorem mergeStreamsIter_slice_eq (ord : List (String × Bytes) → List (String × Bytes))
    (first : GoRecord) (items : List RecvItem) (s0 : field) (srest : List field)
    (nsl : List field) (hsf : sliceFields first = (s0 :: srest, nsl)) :
    mergeStreamsIter ord first items =
      (runLoop s0.Name (namesInit (s0 :: srest) nsl)
        { out := '{' :: scalarPrefix nsl
            ++ trimOnce [] ['\n'] (encStr s0.JSONName) ++ ':' ::
              trimOnce [] [']'] (encode s0.Value)
          files := initFiles srest
          logs := [.slices ((s0 :: srest).map (fun f => f.Name))] } items).map
        (fun st => (st.out ++ ']' :: spillBytes (ord st.files) ++ ['}', '\n'], st.logs)) := by
  simp only [mergeStreamsIter, hsf]

/-- A concrete record of schema `{scalar A, repeated B, repeated C,
repeated D}`, whose merge buffers two spillover fields. -/
def rec4 : GoRecord :=
  [⟨"A", "", .scalar 1⟩, ⟨"B", "", .slice [1]⟩, ⟨"C", "", .slice [2]⟩, ⟨"D", "", .slice [3]⟩]

/-! ## Claim C3 -/

/-- C3: for the trim writer with prefix `"["` and suffix `"]"`: writing
`[1,2,3]` then closing emits exactly `1,2,3`; writing only `]` then
closing emits nothing; writing `[1` then `]` in two calls then closing
emits exactly `1`. -/
theorem C3_trim_writer_roundtrip :
    twRun "[".data "]".data ["[1,2,3]".data] = "1,2,3".data ∧
      twRun "[".data "]".data ["]".data] = [] ∧
      twRun "[".data "]".data ["[1".data, "]".data] = "1".data := by
  refine ⟨?_, ?_, ?_⟩ <;> decide

/-! ## Claim C4 -/

/-- C4: contrary to the never-panic requirement, `mergeStreams` faults
on a stream whose later record carries only nil repeated fields: the
code indexes `S[0]` without checking that `S` is non-empty (merge.go
line 140), an index-out-of-range panic modelled by `none`. -/
theorem C4_all_nil_record_fault :
    mergeStreams (mkRec 1 (some [2]) (some [3]))
      [.part (mkRec 4 none none), .fail .eof] = none := by
  decide

/-! ## Claim C5 -/

/-- C5 counterexample: a single `Write` whose bytes do not start with
the configured prefix `"["` still loses its first byte — the claim's
"otherwise the bytes pass through unchanged" is false. -/
theorem C5_counterexample :
    twRun "[".data "]".data ["X1,2".data] = "1,2".data ∧
      "X1,2".data.take 1 ≠ "[".data ∧ "1,2".data ≠ "X1,2".data := by
  refine ⟨?_, ?_, ?_⟩ <;> decide

/-- C5 amended: the trim writer drops `min(len prefix, len p)` leading
bytes of the stream unconditionally, whether or not they match the
prefix: a write not longer than the pending prefix is swallowed whole,
and a longer write behaves exactly like a prefix-free writer fed the
write with its first `len prefix` bytes removed. -/
theorem C5_unconditional_prefix_drop :
    (∀ pre suf p : Bytes, pre ≠ [] → p.length ≤ pre.length → twRun pre suf [p] = [])
    ∧ (∀ pre suf p : Bytes, pre.length < p.length →
        twRun pre suf [p] = twRun [] suf [p.drop pre.length]) := by
  constructor
  · intro pre suf p hp h
    show trimOnce pre suf p = []
    rw [trimOnce_eq, write_short pre suf p hp h]
    simp [trimWriter.Close]
  · intro pre suf p h
    show trimOnce pre suf p = trimOnce [] suf (p.drop pre.length)
    rw [trimOnce_eq, trimOnce_eq, write_fresh pre suf p h,
      write_fresh [] suf (p.drop pre.length) (by simp [Nat.sub_pos_of_lt h])]
    simp

/-- Witness for the amended C5 at concrete inputs. -/
theorem C5_unconditional_prefix_drop_witness :
    twRun "ab".data "]".data ["a".data] = [] ∧
      twRun "[".data "]".data ["X1,2".data] =
        twRun [] "]".data [("X1,2".data).drop ("[".data).length] := by
  exact ⟨C5_unconditional_prefix_drop.1 "ab".data "]".data "a".data (by decide) (by decide),
    C5_unconditional_prefix_drop.2 "[".data "]".data "X1,2".data (by decide)⟩

instance (r : Row) : Decidable (validRow r) := by
  unfold validRow
  infer_instance

/-! ## Claim C1 -/

/-- C1 counterexample: there is no lazy spillover-store creation.  With
`C` empty (nil) in the first record and first observed non-empty in the
second record, the claim says the merged C list is `[2]`; the code
instead looks up a store that was never created, getting a nil
`*os.File`, and faults in the error log's `fh.Name()` call (merge.go
lines 148-150) — modelled by `none`. -/
theorem C1_counterexample :
    mergeStreams (mkRec 0 (some [1]) none)
      [.part (mkRec 5 none (some [2])), .fail .eof] = none := by
  decide

/-- C1 amended: for streams of the schema `{scalar A, repeated B,
repeated C}` in which the first record carries non-empty B and C and
every later record carries nil-or-non-empty repeated values with at
least one non-nil, the merged output's B list is exactly the
arrival-order concatenation of the B contributions and its C list
exactly that of the C contributions, for every interleaving of which
records carry B versus C.  (Spillover stores are created eagerly from
the first record, not lazily.) -/
theorem C1_concatenation_amended (ord : List (String × Bytes) → List (String × Bytes))
    (hord : ∀ l, (ord l).Perm l) (a₁ : Int) (b₁ c₁ : List Int) (hb : b₁ ≠ []) (hc : c₁ ≠ [])
    (rs : List Row) (hv : ∀ r ∈ rs, validRow r) (te : Option RecvErr) :
    mergeStreamsIter ord (mkRec a₁ (some b₁) (some c₁)) (rowItems rs ++ termItems te) =
      some ('{' :: (encStr "A" ++ ':' :: (encInt a₁ ++ ',' :: (encStr "B" ++ ':' :: '[' ::
            (encElems (b₁ ++ cat (rowBs rs)) ++ ']' :: ',' :: (encStr "C" ++ ':' :: '[' ::
            (encElems (c₁ ++ cat (rowCs rs)) ++ ']' :: ['}', '\n'])))))),
        LogEvent.slices ["B", "C"] :: termLog te) :=
  mergeStreams_family ord hord a₁ b₁ c₁ hb hc rs hv te

/-- Witness for the amended C1: a three-record stream interleaving
B-only and C-only contributions. -/
theorem C1_concatenation_amended_witness :
    mergeStreamsIter id (mkRec 1 (some [10]) (some [20]))
        (rowItems [(2, none, some [21]), (3, some [11], none)] ++ termItems (some .eof)) =
      some ("\x7b\"A\":1,\"B\":[10,11],\"C\":[20,21]\x7d\n".data, [.slices ["B", "C"]]) := by
  have h := C1_concatenation_amended id (fun l => List.Perm.refl l) 1 [10] [20]
      (by decide) (by decide) [(2, none, some [21]), (3, some [11], none)] (by decide)
      (some .eof)
  exact h.trans (by decide)

/-! ## Claim C2 -/

/-- C2 counterexample: the first repeated field is not always exactly
one well-formed list.  A later record whose first-field value is empty
but non-nil makes the merge write its separator comma before zero
trimmed element bytes (merge.go 140-146), so the field renders as the
malformed `"B":[2,]` instead of the claimed list `[2]` of the
concatenated elements. -/
theorem C2_counterexample :
    mergeStreams (mkRec 1 (some [2]) (some [3]))
        [.part (mkRec 1 (some []) (some [4])), .fail .eof] =
      some ("\x7b\"A\":1,\"B\":[2,],\"C\":[3,4]\x7d\n".data, [.slices ["B", "C"]]) ∧
      "\x7b\"A\":1,\"B\":[2,],\"C\":[3,4]\x7d\n".data ≠
        "\x7b\"A\":1,\"B\":[2],\"C\":[3,4]\x7d\n".data := by
  refine ⟨?_, ?_⟩ <;> decide

/-- C2 amended: provided the first record's repeated values are
non-empty and every later record's repeated values are nil or
non-empty (with at least one non-nil), the first repeated field
appears in the output as its encoded external name, a colon, and one
well-formed list: the opening bracket, the concatenated elements
(containing no closing bracket), and the single closing bracket
written at finalization; the encoder's own list-close markers were
stripped by the trim writer.  An empty non-nil contribution instead
injects a bare separator comma into the list (see the
counterexample). -/
theorem C2_first_field_single_list (ord : List (String × Bytes) → List (String × Bytes))
    (hord : ∀ l, (ord l).Perm l) (a₁ : Int) (b₁ c₁ : List Int) (hb : b₁ ≠ []) (hc : c₁ ≠ [])
    (rs : List Row) (hv : ∀ r ∈ rs, validRow r) (te : Option RecvErr) :
    mergeStreamsIter ord (mkRec a₁ (some b₁) (some c₁)) (rowItems rs ++ termItems te) =
      some (('{' :: (encStr "A" ++ ':' :: (encInt a₁ ++ [',']))) ++ (encStr "B" ++ [':']) ++
          ('[' :: encElems (b₁ ++ cat (rowBs rs)) ++ [']']) ++
          (',' :: (encStr "C" ++ ':' :: '[' :: (encElems (c₁ ++ cat (rowCs rs)) ++ [']']))) ++
          ['}', '\n'],
        LogEvent.slices ["B", "C"] :: termLog te)
    ∧ ']' ∉ encElems (b₁ ++ cat (rowBs rs)) := by
  refine ⟨(mergeStreams_family ord hord a₁ b₁ c₁ hb hc rs hv te).trans ?_,
    rbracket_not_mem_encElems _⟩
  simp [List.append_assoc]

/-- Witness for C2 at a concrete two-record stream. -/
theorem C2_first_field_single_list_witness :
    mergeStreamsIter id (mkRec 7 (some [1, 2]) (some [3]))
        (rowItems [(8, some [4], some [5])] ++ termItems none) =
      some ("\x7b\"A\":7,\"B\":[1,2,4],\"C\":[3,5]\x7d\n".data, [.slices ["B", "C"]]) ∧
      ']' ∉ encElems ([1, 2] ++ cat (rowBs [(8, some [4], some [5])])) := by
  have h := C2_first_field_single_list id (fun l => List.Perm.refl l) 7 [1, 2] [3]
      (by decide) (by decide) [(8, some [4], some [5])] (by decide) none
  exact ⟨h.1.trans (by decide), h.2⟩

/-! ## Claim C6 -/

/-- C6: in merge mode (the first record has a repeated field), changing
later records' scalar values — any assignment `σ` of new values to the
non-slice fields of every later record — changes nothing of the merge's
output or logs; and on the family, the scalar field of the output is the
first record's value `a₁`, with a later record's `a₂` nowhere in the
result. -/
theorem C6_scalar_stability :
    (∀ (σ : String → Int) (ord : List (String × Bytes) → List (String × Bytes))
        (first : GoRecord) (items : List RecvItem), (sliceFields first).1 ≠ [] →
        mergeStreamsIter ord first (items.map (mapScalarsItem σ)) =
          mergeStreamsIter ord first items)
    ∧ (∀ a₁ a₂ : Int,
        mergeStreams (mkRec a₁ (some [10]) (some [20]))
            (rowItems [(a₂, some [11], none)] ++ termItems (some .eof)) =
          some ('{' :: (encStr "A" ++ ':' :: (encInt a₁ ++ ',' :: (encStr "B" ++ ':' :: '[' ::
                (encElems [10, 11] ++ ']' :: ',' :: (encStr "C" ++ ':' :: '[' ::
                (encElems [20] ++ ']' :: ['}', '\n'])))))),
            [.slices ["B", "C"]])) := by
  constructor
  · intro σ ord first items h
    rcases hsf : sliceFields first with ⟨sl, nsl⟩
    cases sl with
    | nil => rw [hsf] at h; simp at h
    | cons s0 srest =>
        simp only [mergeStreamsIter, hsf]
        rw [runLoop_mapScalars]
  · intro a₁ a₂
    have h := mergeStreams_family id (fun l => List.Perm.refl l) a₁ [10] [20]
        (by decide) (by decide) [(a₂, some [11], none)]
        (by
          intro r hr
          rw [List.mem_singleton] at hr
          subst hr
          exact ⟨by simp, by simp, Or.inl (by simp)⟩) (some .eof)
    exact h

/-- Witness for C6 at concrete inputs. -/
theorem C6_scalar_stability_witness :
    mergeStreamsIter id (mkRec 1 (some [10]) (some [20]))
        (([RecvItem.part (mkRec 5 none (some [21])), .fail .eof]).map
          (mapScalarsItem (fun _ => 99))) =
      mergeStreamsIter id (mkRec 1 (some [10]) (some [20]))
        [RecvItem.part (mkRec 5 none (some [21])), .fail .eof] ∧
      mergeStreams (mkRec 3 (some [10]) (some [20]))
          (rowItems [(4, some [11], none)] ++ termItems (some .eof)) =
        some ('{' :: (encStr "A" ++ ':' :: (encInt 3 ++ ',' :: (encStr "B" ++ ':' :: '[' ::
              (encElems [10, 11] ++ ']' :: ',' :: (encStr "C" ++ ':' :: '[' ::
              (encElems [20] ++ ']' :: ['}', '\n'])))))),
          [.slices ["B", "C"]]) := by
  exact ⟨C6_scalar_stability.1 (fun _ => 99) id (mkRec 1 (some [10]) (some [20]))
      [RecvItem.part (mkRec 5 none (some [21])), .fail .eof] (by decide),
    C6_scalar_stability.2 3 4⟩

/-! ## Claim C7 -/

/-- C7 counterexample: an empty but non-nil repeated value in a later
record is not skipped: it contributes a bare separator comma, so the
output's B list becomes the malformed `[1,]` and the stream differs
from the same stream without that record — the empty contribution was
not "skipped entirely". -/
theorem C7_counterexample :
    mergeStreams (mkRec 0 (some [1]) (some [5]))
        [.part (mkRec 0 (some []) none), .fail .eof] =
      some ("\x7b\"A\":0,\"B\":[1,],\"C\":[5]\x7d\n".data, [.slices ["B", "C"]]) ∧
      mergeStreams (mkRec 0 (some [1]) (some [5]))
          [.part (mkRec 0 (some []) none), .fail .eof] ≠
        mergeStreams (mkRec 0 (some [1]) (some [5])) [.fail .eof] := by
  refine ⟨?_, ?_⟩ <;> decide

/-- C7 amended: a record whose repeated-field value is nil (absent)
contributes nothing to that field's merged list and triggers no schema
violation — only nil values are skipped; an empty non-nil value is
processed and emits a separator (see the counterexample). -/
theorem C7_nil_skip (a₁ a₂ : Int) (b₁ c₁ cl : List Int) (hb : b₁ ≠ []) (hc : c₁ ≠ [])
    (hcl : cl ≠ []) :
    mergeStreams (mkRec a₁ (some b₁) (some c₁))
        (rowItems [(a₂, none, some cl)] ++ termItems (some .eof)) =
      some ('{' :: (encStr "A" ++ ':' :: (encInt a₁ ++ ',' :: (encStr "B" ++ ':' :: '[' ::
            (encElems b₁ ++ ']' :: ',' :: (encStr "C" ++ ':' :: '[' ::
            (encElems (c₁ ++ cl) ++ ']' :: ['}', '\n'])))))),
        [.slices ["B", "C"]]) := by
  have h := mergeStreams_family id (fun l => List.Perm.refl l) a₁ b₁ c₁ hb hc
      [(a₂, none, some cl)]
      (by
        intro r hr
        rw [List.mem_singleton] at hr
        subst hr
        refine ⟨by simp, ?_, Or.inr (by simp)⟩
        intro hx
        exact hcl (by injection hx)) (some .eof)
  exact h.trans (by simp [rowBs, rowCs, cat, segOf, termLog])

/-- Witness for the amended C7 at concrete inputs. -/
theorem C7_nil_skip_witness :
    mergeStreams (mkRec 1 (some [6]) (some [7]))
        (rowItems [(2, none, some [8])] ++ termItems (some .eof)) =
      some ('{' :: (encStr "A" ++ ':' :: (encInt 1 ++ ',' :: (encStr "B" ++ ':' :: '[' ::
            (encElems [6] ++ ']' :: ',' :: (encStr "C" ++ ':' :: '[' ::
            (encElems ([7] ++ [8]) ++ ']' :: ['}', '\n'])))))),
        [.slices ["B", "C"]]) := by
  exact C7_nil_skip 1 2 [6] [7] [8] (by decide) (by decide) (by decide)

/-! ## Claim C8 -/

/-- C8 counterexample: when a record with all-nil repeated fields
precedes the read error, the merge faults (see C4) and the document is
left unterminated — finalization does not proceed for every
error-terminated stream. -/
theorem C8_counterexample :
    mergeStreams (mkRec 1 (some [2]) (some [3]))
      [.part (mkRec 4 none none), .fail (.other 7)] = none := by
  decide

/-- C8 amended: the merge never consumes the source past its first
error, for any stream whatsoever; and when every record before a
non-EOF error is processed without fault, the error is logged and
finalization still produces a terminated document (first field's
list-close, spilled fields, closing brace, newline). -/
theorem C8_stop_log_finalize :
    (∀ (ord : List (String × Bytes) → List (String × Bytes)) (first : GoRecord)
        (pre : List RecvItem) (e : RecvErr) (post : List RecvItem),
        mergeStreamsIter ord first (pre ++ .fail e :: post) =
          mergeStreamsIter ord first (pre ++ [.fail e]))
    ∧ (∀ ord : List (String × Bytes) → List (String × Bytes), (∀ l, (ord l).Perm l) →
        ∀ (a₁ : Int) (b₁ c₁ : List Int), b₁ ≠ [] → c₁ ≠ [] →
          ∀ rs : List Row, (∀ r ∈ rs, validRow r) → ∀ cc : Nat,
            mergeStreamsIter ord (mkRec a₁ (some b₁) (some c₁))
                (rowItems rs ++ [.fail (.other cc)]) =
              some ('{' :: (encStr "A" ++ ':' :: (encInt a₁ ++ ',' ::
                    (encStr "B" ++ ':' :: '[' ::
                    (encElems (b₁ ++ cat (rowBs rs)) ++ ']' :: ',' ::
                    (encStr "C" ++ ':' :: '[' ::
                    (encElems (c₁ ++ cat (rowCs rs)) ++ ']' :: ['}', '\n'])))))),
                [.slices ["B", "C"], .recvError cc])) := by
  constructor
  · intro ord first pre e post
    exact mergeStreamsIter_stop ord first pre e post
  · intro ord hord a₁ b₁ c₁ hb hc rs hv cc
    exact mergeStreams_family ord hord a₁ b₁ c₁ hb hc rs hv (some (.other cc))

/-- Witness for the amended C8 at concrete inputs. -/
theorem C8_stop_log_finalize_witness :
    mergeStreamsIter id (mkRec 1 (some [4]) (some [5]))
        ([RecvItem.part (mkRec 2 (some [6]) none)] ++ .fail (.other 3) ::
          [RecvItem.part (mkRec 9 none none)]) =
      mergeStreamsIter id (mkRec 1 (some [4]) (some [5]))
        ([RecvItem.part (mkRec 2 (some [6]) none)] ++ [.fail (.other 3)]) ∧
      mergeStreamsIter id (mkRec 1 (some [4]) (some [5]))
          (rowItems [(2, some [6], none)] ++ [.fail (.other 3)]) =
        some ("\x7b\"A\":1,\"B\":[4,6],\"C\":[5]\x7d\n".data,
          [.slices ["B", "C"], .recvError 3]) := by
  refine ⟨C8_stop_log_finalize.1 id _ _ _ _, ?_⟩
  have h := C8_stop_log_finalize.2 id (fun l => List.Perm.refl l) 1 [4] [5]
      (by decide) (by decide) [(2, some [6], none)] (by decide) 3
  exact h.trans (by decide)

/-! ## Claim C9 -/

/-- C9 counterexample: with two buffered repeated fields, finalizing in
the reversed map-iteration order yields a different output document
than creation order — the copy order is the unspecified Go map
iteration order, so the output is not deterministically in
store-creation order. -/
theorem C9_counterexample :
    mergeStreamsIter List.reverse rec4 [.fail .eof] ≠
      mergeStreamsIter id rec4 [.fail .eof] := by
  decide

/-- C9 amended: the spillover fields are copied in whatever order the
Go map iteration yields — any permutation of the stores; with the two
stores of `rec4`, every faithful iteration order produces either the
creation-order document or the reversed one. -/
theorem C9_map_iteration_order :
    ∀ ord : List (String × Bytes) → List (String × Bytes), (∀ l, (ord l).Perm l) →
      mergeStreamsIter ord rec4 [.fail .eof] = mergeStreamsIter id rec4 [.fail .eof] ∨
        mergeStreamsIter ord rec4 [.fail .eof] =
          mergeStreamsIter List.reverse rec4 [.fail .eof] := by
  intro ord hord
  have hsf : sliceFields rec4 =
      ([⟨"B", "B", .slice [1]⟩, ⟨"C", "C", .slice [2]⟩, ⟨"D", "D", .slice [3]⟩],
        [⟨"A", "A", .scalar 1⟩]) := rfl
  rw [mergeStreamsIter_slice_eq ord rec4 _ _ _ _ hsf,
    mergeStreamsIter_slice_eq id rec4 _ _ _ _ hsf,
    mergeStreamsIter_slice_eq List.reverse rec4 _ _ _ _ hsf]
  simp only [runLoop, Option.map_some']
  rcases perm_pair_eq
      (hord (initFiles [⟨"C", "C", .slice [2]⟩, ⟨"D", "D", .slice [3]⟩])) with h | h
  · left
    rw [h]
    decide
  · right
    rw [h]
    decide

/-- Witness for the amended C9: the identity order is a faithful
iteration order. -/
theorem C9_map_iteration_order_witness :
    mergeStreamsIter id rec4 [.fail .eof] = mergeStreamsIter id rec4 [.fail .eof] ∨
      mergeStreamsIter id rec4 [.fail .eof] =
        mergeStreamsIter List.reverse rec4 [.fail .eof] :=
  C9_map_iteration_order id (fun l => List.Perm.refl l)

/-! ## Claim C10 -/

/-- C10: with an empty CA file, the returned dial options carry
basic-auth per-RPC credentials exactly when
`AllowInsecurePasswordTransport` is set; with a CA file, basic-auth
credentials are always attached, together with TLS transport
credentials whenever the TLS credential load succeeds (on load failure
`DialOpts` returns an error). -/
theorem C10_dial_auth (conf : DialConfig) (tlsOk : Bool) :
    (conf.CAFile = "" →
      (hasBasicAuth (DialOpts conf tlsOk).1 = true ↔
        conf.AllowInsecurePasswordTransport = true))
    ∧ (conf.CAFile ≠ "" →
        hasBasicAuth (DialOpts conf tlsOk).1 = true ∧
          (tlsOk = true → DialOption.withTransportCredentials ∈ (DialOpts conf tlsOk).1)) := by
  constructor
  · intro hca
    by_cases hint : (conf.PathPrefix ≠ "" ∨ conf.LogPresent = true) <;>
      cases hfl : conf.AllowInsecurePasswordTransport <;>
        simp [DialOpts, hasBasicAuth, hca, hint, hfl, DialOption.isBasicAuth]
  · intro hca
    by_cases hint : (conf.PathPrefix ≠ "" ∨ conf.LogPresent = true) <;>
      cases tlsOk <;>
        simp [DialOpts, hasBasicAuth, hca, hint, DialOption.isBasicAuth]

/-- Witness for C10 at concrete configurations. -/
theorem C10_dial_auth_witness :
    (hasBasicAuth (DialOpts ⟨"", "", "", "u", "p", false, false, false⟩ true).1 = true ↔
      (⟨"", "", "", "u", "p", false, false, false⟩ : DialConfig).AllowInsecurePasswordTransport
        = true) ∧
      (hasBasicAuth (DialOpts ⟨"", "ca.pem", "", "u", "p", false, false, false⟩ true).1 = true ∧
        (true = true → DialOption.withTransportCredentials ∈
          (DialOpts ⟨"", "ca.pem", "", "u", "p", false, false, false⟩ true).1)) := by
  exact ⟨(C10_dial_auth ⟨"", "", "", "u", "p", false, false, false⟩ true).1 rfl,
    (C10_dial_auth ⟨"", "ca.pem", "", "u", "p", false, false, false⟩ true).2 (by decide)⟩

end Grpcer
